import Mathlib

/-!
Shallow embedding of the icicle CI build orchestrator, covering the parts of
the code that the specification's claims are about:

* `src/build/mod.rs` — the DAG build scheduler (`BuildQueueState` with
  `add_jobs`, `update_status`, `propagate_error`, `propagate_success`,
  `clear_workflow`, and the `BuildQueue` wrappers `add_workflow`,
  `drain_ready_jobs`).
* `src/executor/mod.rs` — the result-to-status translation performed by
  `BuildExecutor::execute_build` after the timed build invocation.
* `src/cache/mod.rs` — `CacheClient::derivation_cached`.

Modelling conventions:

* `daggy::stable_dag::StableDag<BuildJob, ()>` is modelled by an association
  list `nodes : List (Nat × BuildJob)` of stable node indices together with an
  edge list `edges : List (Nat × Nat)` (edge `(a, b)` points from prerequisite
  `a` to dependent `b`) and a fresh-index counter `nextIdx`.  Walker loops that
  mutate the graph while iterating are modelled by taking a snapshot of the
  relevant adjacency list at loop entry, which coincides with the lazy walker
  on every graph shape exercised below.
* `HashMap` becomes an association list (`drv_to_node`, `pending_workflows`),
  `HashSet<i64>` a duplicate-free `List Int`.
* Rust code that can panic (`Option::unwrap`, `Result::unwrap`) is modelled in
  the `Option` monad: a `none` result marks the panic.
* `u64`/`usize` counters become `Nat`; `saturating_sub 1` is `Nat` subtraction.
* The recursive cancellation cascade `propagate_error` receives explicit fuel;
  `update_status` supplies `nodes.length + 1`, which dominates the recursion
  depth on every acyclic graph (daggy rejects cycle-forming edges, which the
  embedding mirrors with a reachability check).
-/

namespace Icicle

/-- Association-list lookup (first binding wins), modelling `HashMap::get`. -/
def alookup {α β : Type} [DecidableEq α] : List (α × β) → α → Option β
  | [], _ => none
  | (a, b) :: t, k => if a = k then some b else alookup t k

/-- Update every binding of an existing key, modelling in-place mutation
through `HashMap::get_mut` / `node_weight_mut`.  Absent keys are untouched. -/
def aset {α β : Type} [DecidableEq α] : List (α × β) → α → β → List (α × β)
  | [], _, _ => []
  | (a, b) :: t, k, v =>
    if a = k then (k, v) :: aset t k v else (a, b) :: aset t k v

/-- Remove a key, modelling `HashMap::remove`. -/
def aremove {α β : Type} [DecidableEq α] : List (α × β) → α → List (α × β)
  | [], _ => []
  | (a, b) :: t, k => if a = k then aremove t k else (a, b) :: aremove t k

/-- Store a value under a key: overwrite the existing binding or append a new
one, modelling `entry(k).or_insert(…)` followed by an update. -/
def astore {α β : Type} [DecidableEq α] (l : List (α × β)) (k : α) (v : β) :
    List (α × β) :=
  if (alookup l k).isSome then aset l k v else l ++ [(k, v)]

/-- BuildStatus from `src/build/mod.rs`. -/
inductive BuildStatus where
  | Queued
  | Ready
  | Running
  | Success
  | Cached
  | Failed
  | Timedout
  | Canceled
deriving DecidableEq, Repr

/-- BuildStatus::done from `src/build/mod.rs` (terminal states). -/
def BuildStatus.done (s : BuildStatus) : Bool :=
  s == BuildStatus.Success || s == BuildStatus.Cached || s == BuildStatus.Failed
    || s == BuildStatus.Timedout || s == BuildStatus.Canceled

/-- BuildStatus::error from `src/build/mod.rs` (terminal-err states). -/
def BuildStatus.error (s : BuildStatus) : Bool :=
  s == BuildStatus.Failed || s == BuildStatus.Timedout
    || s == BuildStatus.Canceled

/-- Derivation record from `src/build/mod.rs` (the `status` field of the Rust
struct is never read by the scheduler and is omitted). -/
structure Derivation where
  name : String
  drv_path : String
  outputs : List String
  system : String
  input_drvs : List String
deriving DecidableEq, Repr

/-- BuildJob from `src/build/mod.rs`. -/
structure BuildJob where
  derivation : Derivation
  status : BuildStatus
  requested_by : List Int
deriving DecidableEq, Repr

/-- BuildQueueState from `src/build/mod.rs`. -/
structure BuildQueueState where
  nodes : List (Nat × BuildJob)
  edges : List (Nat × Nat)
  nextIdx : Nat
  drv_to_node : List (String × Nat)
  ready : List Nat
  pending_workflows : List (Int × Nat)
deriving DecidableEq, Repr

/-- The `Default` state: an empty queue. -/
def BuildQueueState.empty : BuildQueueState :=
  { nodes := [], edges := [], nextIdx := 0, drv_to_node := [], ready := [],
    pending_workflows := [] }

/-- HashSet::insert on a duplicate-free list of workflow ids. -/
def hsInsert (l : List Int) (w : Int) : List Int :=
  if l.contains w then l else l ++ [w]

/-- Reachability along `edges` with explicit fuel (depth-first search used by
daggy's would-cycle test).  `edges.length` fuel is exact on acyclic graphs. -/
def reach (edges : List (Nat × Nat)) : Nat → Nat → Nat → Bool
  | 0, src, tgt => src == tgt
  | fuel + 1, src, tgt =>
    src == tgt
      || (edges.filter (fun e => e.1 == src)).any (fun e => reach edges fuel e.2 tgt)

/-- Adding edge `a → b` would close a cycle iff `b` already reaches `a`
(daggy `StableDag::add_edge` returns `WouldCycle` in that case, which the
source unwraps). -/
def wouldCycle (edges : List (Nat × Nat)) (a b : Nat) : Bool :=
  reach edges edges.length b a

/-- Remove the first occurrence of edge `(a, b)`, modelling
`StableDag::remove_edge` on a graph without parallel edges. -/
def removeEdge : List (Nat × Nat) → Nat → Nat → List (Nat × Nat)
  | [], _, _ => []
  | e :: t, a, b => if e = (a, b) then t else e :: removeEdge t a b

/-- Decrement a workflow's pending counter, modelling the body of the
`for workflow_id in requested_by` loops in `propagate_error` /
`propagate_success`: `saturating_sub(1)`, and on reaching zero the workflow is
reported complete and its entry removed. -/
def decPending (p : List (Int × Nat)) (w : Int) : List (Int × Nat) × List Int :=
  match alookup p w with
  | none => (p, [])
  | some c =>
    let c2 := c - 1
    if c2 = 0 then (aremove p w, [w]) else (aset p w c2, [])

/-- Fold `decPending` over a job's `requested_by` set, collecting the
workflows that completed. -/
def decPendingAll : List (Int × Nat) → List Int → List (Int × Nat) × List Int
  | p, [] => (p, [])
  | p, w :: rest =>
    let r := decPending p w
    let rr := decPendingAll r.1 rest
    (rr.1, r.2 ++ rr.2)

/-- Accumulator of the node-insertion loop of `BuildQueueState::add_jobs`:
the evolving state, the `roots` vector of newly created ready nodes, and the
`new_jobs_count` / `duplicate_pending_jobs` counters. -/
structure AddAcc where
  s : BuildQueueState
  roots : List Nat
  newJobs : Nat
  dupPending : Nat
deriving Repr

/-- One iteration of the `for d in &derivations` node loop of `add_jobs`. -/
def addNodeStep (workflow_id : Int) (acc : AddAcc) (d : Derivation) :
    Option AddAcc :=
  match alookup acc.s.drv_to_node d.drv_path with
  | some idx =>
    match alookup acc.s.nodes idx with
    | none => none
    | some job =>
      let job2 := { job with requested_by := hsInsert job.requested_by workflow_id }
      let dup2 := if job.status.done then acc.dupPending else acc.dupPending + 1
      some { acc with
               s := { acc.s with nodes := aset acc.s.nodes idx job2 },
               dupPending := dup2 }
  | none =>
    let rdy := d.input_drvs.isEmpty
    let st := if rdy then BuildStatus.Ready else BuildStatus.Queued
    let idx := acc.s.nextIdx
    let job : BuildJob := { derivation := d, status := st, requested_by := [workflow_id] }
    some { s := { acc.s with
                    nodes := acc.s.nodes ++ [(idx, job)],
                    drv_to_node := acc.s.drv_to_node ++ [(d.drv_path, idx)],
                    nextIdx := idx + 1 },
           roots := if rdy then acc.roots ++ [idx] else acc.roots,
           newJobs := acc.newJobs + 1,
           dupPending := acc.dupPending }

/-- The node-insertion loop of `add_jobs`. -/
def addNodesLoop (workflow_id : Int) : AddAcc → List Derivation → Option AddAcc
  | acc, [] => some acc
  | acc, d :: rest =>
    match addNodeStep workflow_id acc d with
    | none => none
    | some acc2 => addNodesLoop workflow_id acc2 rest

/-- The `for dep in &d.input_drvs` edge loop of `add_jobs`: the `unwrap` on an
unresolvable input and the `unwrap` on a cycle-forming edge are both modelled
as `none`. -/
def addDepEdges (toIdx : Nat) : BuildQueueState → List String → Option BuildQueueState
  | s, [] => some s
  | s, dep :: rest =>
    match alookup s.drv_to_node dep with
    | none => none
    | some fromIdx =>
      if s.edges.contains (fromIdx, toIdx) then addDepEdges toIdx s rest
      else if wouldCycle s.edges fromIdx toIdx then none
      else addDepEdges toIdx { s with edges := s.edges ++ [(fromIdx, toIdx)] } rest

/-- The outer `for d in derivations` edge loop of `add_jobs`. -/
def addEdgesOuter : BuildQueueState → List Derivation → Option BuildQueueState
  | s, [] => some s
  | s, d :: rest =>
    match alookup s.drv_to_node d.drv_path with
    | none => none
    | some toIdx =>
      match addDepEdges toIdx s d.input_drvs with
      | none => none
      | some s2 => addEdgesOuter s2 rest

/-- The pending-counter update between the two loops of `add_jobs`:
`if total_pending > 0 { *pending.entry(workflow_id).or_insert(0) += total_pending }`. -/
def pendingAfterBatch (s : BuildQueueState) (workflow_id : Int)
    (total_pending : Nat) : BuildQueueState :=
  let newPending :=
    astore s.pending_workflows workflow_id
      ((alookup s.pending_workflows workflow_id).getD 0 + total_pending)
  if total_pending > 0 then { s with pending_workflows := newPending }
  else s

/-- BuildQueueState::add_jobs from `src/build/mod.rs`: insert nodes, account
pending jobs, insert edges, extend the ready vector with the new roots, and
return whether the batch contributed no pending jobs. -/
def add_jobs (s : BuildQueueState) (derivations : List Derivation)
    (workflow_id : Int) : Option (BuildQueueState × Bool) :=
  match addNodesLoop workflow_id { s := s, roots := [], newJobs := 0, dupPending := 0 } derivations with
  | none => none
  | some acc =>
    let total_pending := acc.newJobs + acc.dupPending
    match addEdgesOuter (pendingAfterBatch acc.s workflow_id total_pending) derivations with
    | none => none
    | some s3 => some ({ s3 with ready := s3.ready ++ acc.roots }, total_pending == 0)

/-- The `for` loop over the children of a failed node in `propagate_error`:
push each child onto the ready vector, then recursively cancel it.  The
recursive call is passed in as `pe`. -/
def cancelChildren (pe : BuildQueueState → Nat → Option (BuildQueueState × List Int)) :
    BuildQueueState → List Int → List Nat → Option (BuildQueueState × List Int)
  | s, completed, [] => some (s, completed)
  | s, completed, n :: rest =>
    match pe { s with ready := s.ready ++ [n] } n with
    | none => none
    | some (s2, c2) => cancelChildren pe s2 (completed ++ c2) rest

/-- BuildQueueState::propagate_error from `src/build/mod.rs`: set the status,
decrement the pending counters of the requesting workflows, detach all
incoming edges, then push every child onto the ready vector and recursively
cancel it.  The recursion carries explicit fuel. -/
def propagate_error : Nat → BuildQueueState → Nat → BuildStatus → Option (BuildQueueState × List Int)
  | 0, _, _, _ => none
  | fuel + 1, s, id, status =>
    match alookup s.nodes id with
    | none => none
    | some job =>
      let s1 := { s with nodes := aset s.nodes id { job with status := status } }
      let pc := decPendingAll s1.pending_workflows job.requested_by
      let s2 := { s1 with pending_workflows := pc.1 }
      let s3 := { s2 with edges := s2.edges.filter (fun e => e.2 != id) }
      let children := (s3.edges.filter (fun e => e.1 == id)).map (fun e => e.2)
      cancelChildren (fun t n => propagate_error fuel t n BuildStatus.Canceled) s3 pc.2 children

/-- The `for` loop over the children of a succeeded node in
`propagate_success`: remove the edge, and if the child has no remaining
parents, mark it Ready and push it onto the ready vector. -/
def successChildren (id : Nat) : BuildQueueState → List Nat → Option BuildQueueState
  | s, [] => some s
  | s, n :: rest =>
    let s1 := { s with edges := removeEdge s.edges id n }
    let nparents : Nat := (s1.edges.filter (fun e => e.2 == n)).length
    if nparents = 0 then
      match alookup s1.nodes n with
      | none => none
      | some jn =>
        successChildren id
          { s1 with nodes := aset s1.nodes n { jn with status := BuildStatus.Ready },
                    ready := s1.ready ++ [n] } rest
    else successChildren id s1 rest

/-- The first phase shared by the terminal transitions: write the status and
decrement the pending counters of every requesting workflow, returning the
updated state and the completed workflows. -/
def terminalBase (s : BuildQueueState) (id : Nat) (job : BuildJob)
    (status : BuildStatus) : BuildQueueState × List Int :=
  let s1 := { s with nodes := aset s.nodes id { job with status := status } }
  let pc := decPendingAll s1.pending_workflows job.requested_by
  ({ s1 with pending_workflows := pc.1 }, pc.2)

/-- BuildQueueState::propagate_success from `src/build/mod.rs`. -/
def propagate_success (s : BuildQueueState) (id : Nat) (status : BuildStatus) :
    Option (BuildQueueState × List Int) :=
  match alookup s.nodes id with
  | none => none
  | some job =>
    match successChildren id (terminalBase s id job status).1
        (((terminalBase s id job status).1.edges.filter (fun e => e.1 == id)).map
          (fun e => e.2)) with
    | none => none
    | some s3 => some (s3, (terminalBase s id job status).2)

/-- BuildQueueState::update_status from `src/build/mod.rs`: an unknown
`drv_path` is a silent no-op; an error status starts the cancellation cascade,
another terminal status the success propagation, and a non-terminal status is
written directly. -/
def update_status (s : BuildQueueState) (drv_path : String) (status : BuildStatus) :
    Option (BuildQueueState × List Int) :=
  match alookup s.drv_to_node drv_path with
  | none => some (s, [])
  | some id =>
    if status.error then propagate_error (s.nodes.length + 1) s id status
    else if status.done then propagate_success s id status
    else
      match alookup s.nodes id with
      | none => none
      | some job =>
        some ({ s with nodes := aset s.nodes id { job with status := status } }, [])

/-- The loop of BuildQueueState::clear_workflow over a snapshot
(`drv_to_node.clone()`) of the drv-path map: remove the workflow from each
job's `requested_by`; a job left with no requestors is deleted from the DAG
(with its edges) and from the map. -/
def clearLoop (workflow_id : Int) : BuildQueueState → List (String × Nat) → Option BuildQueueState
  | s, [] => some s
  | s, (d, i) :: rest =>
    match alookup s.nodes i with
    | none => none
    | some job =>
      let rb := job.requested_by.filter (fun x => x != workflow_id)
      if rb.isEmpty then
        clearLoop workflow_id
          { s with nodes := aremove s.nodes i,
                   edges := s.edges.filter (fun e => e.1 != i && e.2 != i),
                   drv_to_node := aremove s.drv_to_node d } rest
      else
        clearLoop workflow_id
          { s with nodes := aset s.nodes i { job with requested_by := rb } } rest

/-- BuildQueueState::clear_workflow from `src/build/mod.rs`. -/
def clear_workflow (s : BuildQueueState) (workflow_id : Int) : Option BuildQueueState :=
  clearLoop workflow_id s s.drv_to_node

/-- Look up every drained index in the DAG (`node_weight(i).unwrap().clone()`);
a stale index is the modelled panic. -/
def drainCollect (s : BuildQueueState) : List Nat → Option (List BuildJob)
  | [] => some []
  | i :: rest =>
    match alookup s.nodes i with
    | none => none
    | some j =>
      match drainCollect s rest with
      | none => none
      | some js => some (j :: js)

/-- BuildQueue::drain_ready_jobs from `src/build/mod.rs`: swap the ready
vector out and return the snapshots of the drained jobs. -/
def drain_ready_jobs (s : BuildQueueState) : Option (BuildQueueState × List BuildJob) :=
  match drainCollect s s.ready with
  | none => none
  | some js => some ({ s with ready := [] }, js)

/-- Outcome of one `path_exists` cache query in `src/cache/mod.rs`: confirmed
hit, confirmed miss, or a query error. -/
inductive CacheQueryResult where
  | hit
  | miss
  | queryError
deriving DecidableEq, Repr

/-- CacheClient::derivation_cached from `src/cache/mod.rs`, as a function of
the per-output query oracle: an empty list yields true; otherwise the loop
short-circuits with false on the first miss, treats a query error as a miss
(returning false instead of propagating the error), and yields true when every
output is a confirmed hit. -/
def derivation_cached (path_exists : String → CacheQueryResult) :
    List String → Bool
  | [] => true
  | o :: rest =>
    match path_exists o with
    | CacheQueryResult.hit => derivation_cached path_exists rest
    | CacheQueryResult.miss => false
    | CacheQueryResult.queryError => false

/-- The outputs actually queried by `derivation_cached`, in order: the loop
stops right after the first non-hit. -/
def derivation_cached_queried (path_exists : String → CacheQueryResult) :
    List String → List String
  | [] => []
  | o :: rest =>
    match path_exists o with
    | CacheQueryResult.hit => o :: derivation_cached_queried path_exists rest
    | _ => [o]

/-- Outcome of the timed build invocation in
`BuildExecutor::execute_build` (`timeout(self.build_timeout, run_nix_build)`):
the inner build succeeded, the inner build failed with an error message, or
the timeout elapsed. -/
inductive BuildOutcome where
  | success
  | buildFailed (msg : String)
  | timedOut
deriving DecidableEq, Repr

/-- The `(final_status, error_message)` match of
`BuildExecutor::execute_build` (src/executor/mod.rs lines 133-158), the pair
subsequently reported through `update_status`. -/
def execute_build_result (timeout_secs : Nat) : BuildOutcome → BuildStatus × Option String
  | BuildOutcome.success => (BuildStatus.Success, none)
  | BuildOutcome.buildFailed e => (BuildStatus.Failed, some e)
  | BuildOutcome.timedOut =>
    (BuildStatus.Failed,
      some ("Build timed out after " ++ toString timeout_secs ++ " seconds"))

/-! Concrete derivations and traces used by the counterexamples and
witnesses. -/

/-- Derivation A: no inputs. -/
def dA : Derivation :=
  { name := "a", drv_path := "/a.drv", outputs := ["/out-a"],
    system := "x86_64-linux", input_drvs := [] }

/-- Derivation B: depends on A. -/
def dB : Derivation :=
  { name := "b", drv_path := "/b.drv", outputs := ["/out-b"],
    system := "x86_64-linux", input_drvs := ["/a.drv"] }

/-- Derivation C: no inputs (used by a second workflow). -/
def dC : Derivation :=
  { name := "c", drv_path := "/c.drv", outputs := ["/out-c"],
    system := "x86_64-linux", input_drvs := [] }

/-- Derivation with a declared input that is neither in any batch nor in the
DAG. -/
def dBad : Derivation :=
  { name := "bad", drv_path := "/bad.drv", outputs := ["/out-bad"],
    system := "x86_64-linux", input_drvs := ["/nowhere.drv"] }

/-- Run `add_workflow` on an optional state, keeping the state. -/
def stepAdd (s : Option BuildQueueState) (ds : List Derivation) (w : Int) :
    Option BuildQueueState :=
  s.bind (fun t => (add_jobs t ds w).map Prod.fst)

/-- Run `update_status` on an optional state, keeping the state. -/
def stepUpd (s : Option BuildQueueState) (p : String) (st : BuildStatus) :
    Option BuildQueueState :=
  s.bind (fun t => (update_status t p st).map Prod.fst)

/-- Run `clear_workflow` on an optional state. -/
def stepClear (s : Option BuildQueueState) (w : Int) : Option BuildQueueState :=
  s.bind (fun t => clear_workflow t w)

/-- Status of the job registered under a drv path. -/
def jobStatus (s : Option BuildQueueState) (p : String) : Option BuildStatus :=
  s.bind (fun t => (alookup t.drv_to_node p).bind
    (fun i => (alookup t.nodes i).map BuildJob.status))

/-- Pending-counter entry of a workflow. -/
def pendingEntry (s : Option BuildQueueState) (w : Int) : Option (Option Nat) :=
  s.map (fun t => alookup t.pending_workflows w)

/-- Number of jobs that the workflow still requests and that are not yet
terminal (the spec's candidate value for `pending[w]`). -/
def nonTerminalRequestorCount (s : Option BuildQueueState) (w : Int) : Option Nat :=
  s.map (fun t =>
    (t.nodes.filter (fun p => p.2.requested_by.contains w && !p.2.status.done)).length)

/-- Whether some index in the ready vector refers to a terminal (or missing)
job. -/
def readyHasTerminal (s : Option BuildQueueState) : Option Bool :=
  s.map (fun t => t.ready.any (fun i =>
    match alookup t.nodes i with
    | some j => j.status.done
    | none => true))

/-- Length of the ready vector. -/
def readyLength (s : Option BuildQueueState) : Option Nat :=
  s.map (fun t => t.ready.length)

/-- Whether the batch entry's drv path already names a node whose status is
done (the condition that actually governs `add_jobs`' return value). -/
def jobDoneAt (s : BuildQueueState) (d : Derivation) : Bool :=
  match alookup s.drv_to_node d.drv_path with
  | none => false
  | some i =>
    match alookup s.nodes i with
    | none => false
    | some j => j.status.done

/-- Boolean well-formedness of the stable-index counter: every node index is
below `nextIdx` (true in every state daggy can produce). -/
def nodesFresh (s : BuildQueueState) : Bool :=
  s.nodes.all (fun p => decide (p.1 < s.nextIdx))

/-! Basic lemmas about the association-list operations. -/

theorem alookup_mem {α β : Type} [DecidableEq α] :
    ∀ {l : List (α × β)} {k : α} {v : β}, alookup l k = some v → (k, v) ∈ l := by
  intro l
  induction l with
  | nil => intro k v h; cases h
  | cons p t ih =>
    intro k v h
    obtain ⟨a, b⟩ := p
    by_cases hk : a = k
    · subst hk
      simp [alookup] at h
      subst h
      exact List.mem_cons_self _ _
    · simp [alookup, hk] at h
      exact List.mem_cons_of_mem _ (ih h)

theorem alookup_append {α β : Type} [DecidableEq α] :
    ∀ (l1 l2 : List (α × β)) (k : α),
      alookup (l1 ++ l2) k =
        (match alookup l1 k with
         | some v => some v
         | none => alookup l2 k) := by
  intro l1
  induction l1 with
  | nil => intro l2 k; simp [alookup]
  | cons p t ih =>
    intro l2 k
    obtain ⟨a, b⟩ := p
    by_cases hk : a = k
    · subst hk; simp [alookup]
    · simp [alookup, hk, ih]

theorem alookup_append_left {α β : Type} [DecidableEq α]
    {l1 : List (α × β)} {k : α} {v : β} (l2 : List (α × β))
    (h : alookup l1 k = some v) : alookup (l1 ++ l2) k = some v := by
  rw [alookup_append, h]

theorem alookup_aset_self {α β : Type} [DecidableEq α] :
    ∀ {l : List (α × β)} {k : α} {v0 : β} (v : β),
      alookup l k = some v0 → alookup (aset l k v) k = some v := by
  intro l
  induction l with
  | nil => intro k v0 v h; cases h
  | cons p t ih =>
    intro k v0 v h
    obtain ⟨a, b⟩ := p
    by_cases hk : a = k
    · subst hk; simp [alookup, aset]
    · simp [alookup, hk] at h
      simp [aset, alookup, hk]
      exact ih v h

theorem alookup_aset_none {α β : Type} [DecidableEq α] :
    ∀ {l : List (α × β)} {k : α} (v : β),
      alookup l k = none → alookup (aset l k v) k = none := by
  intro l
  induction l with
  | nil => intro k v _; simp [aset, alookup]
  | cons p t ih =>
    intro k v h
    obtain ⟨a, b⟩ := p
    by_cases hk : a = k
    · subst hk; simp [alookup] at h
    · simp [alookup, hk] at h
      simp [aset, alookup, hk]
      exact ih v h

theorem alookup_aset_of_ne {α β : Type} [DecidableEq α] :
    ∀ (l : List (α × β)) (k k2 : α) (v : β), k2 ≠ k →
      alookup (aset l k v) k2 = alookup l k2 := by
  intro l
  induction l with
  | nil => intro k k2 v _; simp [aset, alookup]
  | cons p t ih =>
    intro k k2 v hne
    obtain ⟨a, b⟩ := p
    by_cases hk : a = k
    · subst hk
      simp [aset, alookup, hne, Ne.symm hne]
      exact ih _ _ _ hne
    · by_cases hk2 : a = k2
      · subst hk2; simp [aset, alookup, hk]
      · simp [aset, alookup, hk, hk2]
        exact ih _ _ _ hne

theorem alookup_aset_isSome {α β : Type} [DecidableEq α]
    (l : List (α × β)) (k k2 : α) (v : β) :
    (alookup (aset l k v) k2).isSome = (alookup l k2).isSome := by
  by_cases hk : k2 = k
  · subst hk
    cases h : alookup l k2 with
    | none => rw [alookup_aset_none v h]
    | some v0 => rw [alookup_aset_self v h]; rfl
  · rw [alookup_aset_of_ne l k k2 v hk]

theorem alookup_aremove_self {α β : Type} [DecidableEq α] :
    ∀ (l : List (α × β)) (k : α), alookup (aremove l k) k = none := by
  intro l
  induction l with
  | nil => intro k; simp [aremove, alookup]
  | cons p t ih =>
    intro k
    obtain ⟨a, b⟩ := p
    by_cases hk : a = k
    · subst hk; simp [aremove, ih]
    · simp [aremove, alookup, hk, ih]

theorem alookup_astore_self {α β : Type} [DecidableEq α]
    (l : List (α × β)) (k : α) (v : β) : alookup (astore l k v) k = some v := by
  unfold astore
  cases h : alookup l k with
  | none =>
    simp [h]
    rw [alookup_append, h]
    simp [alookup]
  | some v0 =>
    simp [h]
    exact alookup_aset_self v h

/-! Concrete traces for the counterexamples. -/

/-- State after `add_workflow([A], 1)` then `update_status("/a.drv", Success)`. -/
def c1s2 : Option BuildQueueState :=
  stepUpd (stepAdd (some BuildQueueState.empty) [dA] 1) "/a.drv" BuildStatus.Success

/-- State after additionally applying `update_status("/a.drv", Failed)` to a
node that is already terminal. -/
def c1s3 : Option BuildQueueState := stepUpd c1s2 "/a.drv" BuildStatus.Failed

/-- C1 counterexample: after `add_workflow([A], 1)` and
`update_status("/a.drv", Success)` the job is terminal (Success), yet a later
`update_status("/a.drv", Failed)` changes its status to Failed — a terminal
status is not sticky, contradicting the claim that an update applied to an
already-terminal node leaves its status unchanged. -/
theorem update_status_changes_terminal_cex :
    jobStatus c1s2 "/a.drv" = some BuildStatus.Success ∧
    BuildStatus.Success.done = true ∧
    jobStatus c1s3 "/a.drv" = some BuildStatus.Failed ∧
    BuildStatus.Failed ≠ BuildStatus.Success := by
  refine ⟨rfl, rfl, rfl, ?_⟩
  decide

/-- State after `add_workflow([A, B(→A)], 1)` then
`update_status("/a.drv", Failed)`. -/
def c2sF : Option BuildQueueState :=
  stepUpd (stepAdd (some BuildQueueState.empty) [dA, dB] 1) "/a.drv" BuildStatus.Failed

/-- C2 counterexample: when A fails, `propagate_error` pushes A's child B onto
the ready vector and then cancels it, so the ready set holds a node whose
status is terminal (Canceled) — contradicting the claim that every member of
the ready set is non-terminal. -/
theorem ready_set_contains_terminal_cex :
    readyHasTerminal c2sF = some true ∧
    jobStatus c2sF "/b.drv" = some BuildStatus.Canceled ∧
    BuildStatus.Canceled.done = true := by
  exact ⟨rfl, rfl, rfl⟩

/-- State after `add_workflow([A], 1)` then `clear_workflow(1)`. -/
def c3s : Option BuildQueueState :=
  stepClear (stepAdd (some BuildQueueState.empty) [dA] 1) 1

/-- C3 counterexample: after `clear_workflow(1)` the entry `pending[1]` is
still present with value 1, while no job requested by workflow 1 remains
non-terminal (the count is 0) — `clear_workflow` neither removes the pending
entry nor restores the counter invariant. -/
theorem clear_workflow_pending_cex :
    pendingEntry c3s 1 = some (some 1) ∧
    nonTerminalRequestorCount c3s 1 = some 0 ∧
    (1 : Nat) ≠ 0 := by
  refine ⟨rfl, rfl, ?_⟩
  decide

/-- State after `add_workflow([A], 1)`. -/
def c6s1 : Option BuildQueueState := stepAdd (some BuildQueueState.empty) [dA] 1

/-- State after calling `add_workflow([A], 1)` a second time with the same
derivation list and workflow id. -/
def c6s2 : Option BuildQueueState := stepAdd c6s1 [dA] 1

/-- C6 counterexample: a second identical `add_workflow([A], 1)` call raises
`pending[1]` from 1 to 2 — re-insertion is not deduplicated on
`(drv_path, workflow_id)` and is not a no-op on the counters. -/
theorem add_workflow_reinsert_cex :
    pendingEntry c6s1 1 = some (some 1) ∧
    pendingEntry c6s2 1 = some (some 2) ∧
    (2 : Nat) ≠ 1 := by
  refine ⟨rfl, rfl, ?_⟩
  decide

/-- State after `add_workflow([C], 2)`, `update_status("/c.drv", Success)`,
`add_workflow([A], 1)`: workflow 1 has one pending job (A) and C is a done
node. -/
def c7s3 : Option BuildQueueState :=
  stepAdd (stepUpd (stepAdd (some BuildQueueState.empty) [dC] 2) "/c.drv" BuildStatus.Success)
    [dA] 1

/-- Result of `add_workflow([C], 1)` on that state. -/
def c7res : Option (BuildQueueState × Bool) := c7s3.bind (fun s => add_jobs s [dC] 1)

/-- C7 counterexample: `add_workflow([C], 1)` returns true because the batch
contributes no pending jobs (C is already done), even though workflow 1 still
has `pending[1] = 1` from the earlier batch — the return value does not take
previously accumulated pending jobs into account. -/
theorem add_workflow_return_cex :
    c7res.map Prod.snd = some true ∧
    c7res.map (fun r => alookup r.1.pending_workflows 1) = some (some 1) ∧
    some (1 : Nat) ≠ some 0 := by
  refine ⟨rfl, rfl, ?_⟩
  decide

/-- C8 counterexample: a batch whose single derivation declares the input
`/nowhere.drv`, which is neither among the batch's drv paths nor a node of
the (empty) DAG: `add_jobs` does not complete normally — the `unwrap` on the
unresolved input panics, modelled as `none` — instead of inserting the node
without the edge. -/
theorem add_workflow_unknown_input_cex :
    add_jobs BuildQueueState.empty [dBad] 1 = none ∧
    dBad.input_drvs = ["/nowhere.drv"] ∧
    alookup BuildQueueState.empty.drv_to_node "/nowhere.drv" = none ∧
    [dBad].map Derivation.drv_path = ["/bad.drv"] := by
  exact ⟨rfl, rfl, rfl, rfl⟩

/-- State after `add_workflow([A], 1)` then `clear_workflow(1)`: the node was
deleted but its index 0 is still in the ready vector. -/
def c10s : Option BuildQueueState :=
  stepClear (stepAdd (some BuildQueueState.empty) [dA] 1) 1

/-- C10: `clear_workflow` deletes the node of workflow 1 but leaves its index
in the ready vector, and the following `drain_ready_jobs` hits the stale
index: `node_weight(i).unwrap()` panics (modelled as `none`).  The claimed
safety property fails on this three-call sequence. -/
theorem drain_after_clear_fails :
    readyLength c10s = some 1 ∧
    c10s.bind (fun s => (drain_ready_jobs s).map Prod.snd) = none := by
  exact ⟨rfl, rfl⟩

/-- C4: the `(final_status, error_message)` pair produced by
`execute_build_result` when the build invocation exceeds the configured
timeout: the status reported through `update_status` is `Failed`, not
`Timedout`, even though the error message says the build timed out — the
executor never constructs `BuildStatus::Timedout`. -/
theorem timeout_reported_as_failed :
    ∀ timeout_secs : Nat,
      (execute_build_result timeout_secs BuildOutcome.timedOut).1 = BuildStatus.Failed ∧
      (execute_build_result timeout_secs BuildOutcome.timedOut).1 ≠ BuildStatus.Timedout := by
  intro t
  refine ⟨rfl, ?_⟩
  show BuildStatus.Failed ≠ BuildStatus.Timedout
  decide

/-- Instantiation of `timeout_reported_as_failed` at a concrete timeout. -/
theorem timeout_reported_as_failed_witness :
    (execute_build_result 3600 BuildOutcome.timedOut).1 = BuildStatus.Failed ∧
    (execute_build_result 3600 BuildOutcome.timedOut).1 ≠ BuildStatus.Timedout :=
  timeout_reported_as_failed 3600

/-! Claim C3 (amended part): `clear_workflow` leaves the pending map
untouched. -/

theorem clearLoop_pending (w : Int) (l : List (String × Nat)) :
    ∀ (s s2 : BuildQueueState), clearLoop w s l = some s2 →
      s2.pending_workflows = s.pending_workflows := by
  induction l with
  | nil =>
    intro s s2 h
    simp [clearLoop] at h
    rw [← h]
  | cons p rest ih =>
    intro s s2 h
    obtain ⟨d, i⟩ := p
    simp only [clearLoop] at h
    cases hj : alookup s.nodes i with
    | none => rw [hj] at h; cases h
    | some job =>
      rw [hj] at h
      simp only [] at h
      by_cases hrb : (job.requested_by.filter (fun x => x != w)).isEmpty = true
      · rw [if_pos hrb] at h
        exact (ih _ _ h).trans (by rfl)
      · rw [if_neg hrb] at h
        exact (ih _ _ h).trans (by rfl)

/-- C3 (amended): `clear_workflow(w)` never removes (or changes) the entry
`pending[w]` — the whole pending map is preserved verbatim, so the claimed
counter invariant fails after a clear (see the counterexample). -/
theorem clear_workflow_preserves_pending (s : BuildQueueState) (w : Int)
    (s2 : BuildQueueState) (h : clear_workflow s w = some s2) :
    s2.pending_workflows = s.pending_workflows :=
  clearLoop_pending w s.drv_to_node s s2 h

/-- Witness for `clear_workflow_preserves_pending` at the concrete C3 trace
state. -/
theorem clear_workflow_preserves_pending_witness :
    clear_workflow
        (((add_jobs BuildQueueState.empty [dA] 1).getD (BuildQueueState.empty, false)).1) 1 =
      some (c3s.getD BuildQueueState.empty) ∧
    (c3s.getD BuildQueueState.empty).pending_workflows =
      (((add_jobs BuildQueueState.empty [dA] 1).getD (BuildQueueState.empty, false)).1).pending_workflows := by
  refine ⟨rfl, ?_⟩
  exact clear_workflow_preserves_pending _ 1 _ rfl

/-! Claim C1 (amended part): `update_status` writes the requested status
unconditionally; for a node with no outgoing edges this is provable for every
target status, terminal or not. -/

theorem filter_out_nil (edges : List (Nat × Nat)) (i : Nat)
    (h : ∀ e ∈ edges, e.1 ≠ i) :
    edges.filter (fun e => e.1 == i) = [] := by
  rw [List.filter_eq_nil_iff]
  intro a ha
  simp
  exact h a ha

theorem filter_out_nil2 (edges : List (Nat × Nat)) (i : Nat)
    (h : ∀ e ∈ edges, e.1 ≠ i) :
    (edges.filter (fun e => e.2 != i)).filter (fun e => e.1 == i) = [] := by
  apply filter_out_nil
  intro e he
  exact h e (List.mem_filter.mp he).1

/-- C1 (amended): `update_status` applied to a job with no dependents sets the
job's status to the requested status unconditionally — there is no guard on
the current status, so an already-terminal job's status is overwritten (the
counterexample exercises this with Success overwritten by Failed). -/
theorem update_status_overwrites (s : BuildQueueState) (p : String)
    (st : BuildStatus) (i : Nat) (j : BuildJob)
    (hp : alookup s.drv_to_node p = some i)
    (hj : alookup s.nodes i = some j)
    (hnochild : ∀ e ∈ s.edges, e.1 ≠ i) :
    ∃ s2 c, update_status s p st = some (s2, c) ∧
      ∃ j2, alookup s2.nodes i = some j2 ∧ j2.status = st := by
  unfold update_status
  simp only [hp]
  by_cases he : st.error = true
  · rw [if_pos he]
    simp only [propagate_error, hj]
    rw [filter_out_nil2 s.edges i hnochild]
    simp only [List.map_nil, cancelChildren]
    refine ⟨_, _, rfl, ?_⟩
    exact ⟨_, alookup_aset_self _ hj, rfl⟩
  · rw [if_neg he]
    by_cases hd : st.done = true
    · rw [if_pos hd]
      simp only [propagate_success, hj]
      rw [show (terminalBase s i j st).1.edges = s.edges from rfl]
      rw [filter_out_nil s.edges i hnochild]
      simp only [List.map_nil, successChildren]
      refine ⟨_, _, rfl, ?_⟩
      exact ⟨_, alookup_aset_self _ hj, rfl⟩
    · rw [if_neg hd]
      rw [hj]
      refine ⟨_, _, rfl, ?_⟩
      exact ⟨_, alookup_aset_self _ hj, rfl⟩

/-- Witness for `update_status_overwrites`: the single-node state produced by
`add_workflow([A], 1)` with a `Running` update (any status works; the
counterexample covers overwriting a terminal one). -/
theorem update_status_overwrites_witness :
    alookup (((add_jobs BuildQueueState.empty [dA] 1).getD (BuildQueueState.empty, false)).1).drv_to_node "/a.drv" = some 0 ∧
    (∃ s2 c,
      update_status (((add_jobs BuildQueueState.empty [dA] 1).getD (BuildQueueState.empty, false)).1) "/a.drv" BuildStatus.Running = some (s2, c) ∧
      ∃ j2, alookup s2.nodes 0 = some j2 ∧ j2.status = BuildStatus.Running) := by
  refine ⟨rfl, ?_⟩
  exact update_status_overwrites _ "/a.drv" BuildStatus.Running 0 _ rfl rfl
    (by intro e he; exact absurd he (List.not_mem_nil e))

/-! Claim C9: `derivation_cached`. -/

/-- C9: `derivation_cached` returns true on the empty output list (the
universal quantifier is vacuous), and in general returns true iff every output
is a confirmed cache hit — a miss or a query error yields false (the error is
not propagated).  The second conjunct captures the short-circuit: the queried
outputs are exactly the leading hits plus the first non-hit, if any. -/
theorem derivation_cached_spec (path_exists : String → CacheQueryResult)
    (outputs : List String) :
    (derivation_cached path_exists outputs = true ↔
      ∀ o ∈ outputs, path_exists o = CacheQueryResult.hit) ∧
    derivation_cached_queried path_exists outputs =
      outputs.takeWhile (fun o => path_exists o == CacheQueryResult.hit) ++
        (outputs.dropWhile (fun o => path_exists o == CacheQueryResult.hit)).take 1 := by
  induction outputs with
  | nil =>
    exact ⟨by simp [derivation_cached], by simp [derivation_cached_queried]⟩
  | cons o rest ih =>
    cases h : path_exists o with
    | hit =>
      constructor
      · rw [show derivation_cached path_exists (o :: rest) = derivation_cached path_exists rest by
          simp [derivation_cached, h]]
        rw [ih.1]
        constructor
        · intro hall o2 ho2
          rcases List.mem_cons.mp ho2 with h2 | h2
          · rw [h2]; exact h
          · exact hall o2 h2
        · intro hall o2 ho2
          exact hall o2 (List.mem_cons_of_mem _ ho2)
      · simp [derivation_cached_queried, h, List.takeWhile_cons, List.dropWhile_cons, ih.2]
    | miss =>
      constructor
      · constructor
        · intro hfalse
          rw [show derivation_cached path_exists (o :: rest) = false by
            simp [derivation_cached, h]] at hfalse
          cases hfalse
        · intro hall
          have := hall o (List.mem_cons_self o rest)
          rw [h] at this
          cases this
      · simp [derivation_cached_queried, h, List.takeWhile_cons, List.dropWhile_cons]
    | queryError =>
      constructor
      · constructor
        · intro hfalse
          rw [show derivation_cached path_exists (o :: rest) = false by
            simp [derivation_cached, h]] at hfalse
          cases hfalse
        · intro hall
          have := hall o (List.mem_cons_self o rest)
          rw [h] at this
          cases this
      · simp [derivation_cached_queried, h, List.takeWhile_cons, List.dropWhile_cons]

/-- Instantiation of `derivation_cached_spec` at a concrete oracle and output
list. -/
theorem derivation_cached_spec_witness :
    (derivation_cached (fun _ => CacheQueryResult.hit) ["/out-a", "/out-b"] = true ↔
      ∀ o ∈ ["/out-a", "/out-b"], (fun _ => CacheQueryResult.hit) o = CacheQueryResult.hit) ∧
    derivation_cached_queried (fun _ => CacheQueryResult.hit) ["/out-a", "/out-b"] =
      (["/out-a", "/out-b"].takeWhile (fun o => (fun _ => CacheQueryResult.hit) o == CacheQueryResult.hit)) ++
        ((["/out-a", "/out-b"].dropWhile (fun o => (fun _ => CacheQueryResult.hit) o == CacheQueryResult.hit)).take 1) :=
  derivation_cached_spec (fun _ => CacheQueryResult.hit) ["/out-a", "/out-b"]

/-! Lemmas about the edge-insertion loops of `add_jobs`. -/

theorem addDepEdges_fields (toIdx : Nat) :
    ∀ (deps : List String) (s s2 : BuildQueueState),
      addDepEdges toIdx s deps = some s2 →
      s2.nodes = s.nodes ∧ s2.drv_to_node = s.drv_to_node ∧ s2.ready = s.ready ∧
        s2.pending_workflows = s.pending_workflows ∧ s2.nextIdx = s.nextIdx := by
  intro deps
  induction deps with
  | nil =>
    intro s s2 h
    simp [addDepEdges] at h
    rw [← h]
    exact ⟨rfl, rfl, rfl, rfl, rfl⟩
  | cons dep rest ih =>
    intro s s2 h
    simp only [addDepEdges] at h
    cases hf : alookup s.drv_to_node dep with
    | none => rw [hf] at h; cases h
    | some fromIdx =>
      rw [hf] at h
      simp only [] at h
      by_cases hc : s.edges.contains (fromIdx, toIdx) = true
      · rw [if_pos hc] at h
        exact ih _ _ h
      · rw [if_neg hc] at h
        by_cases hw : wouldCycle s.edges fromIdx toIdx = true
        · rw [if_pos hw] at h; cases h
        · rw [if_neg hw] at h
          obtain ⟨h1, h2, h3, h4, h5⟩ := ih _ _ h
          exact ⟨h1.trans rfl, h2.trans rfl, h3.trans rfl, h4.trans rfl, h5.trans rfl⟩

theorem addDepEdges_resolves (toIdx : Nat) :
    ∀ (deps : List String) (s s2 : BuildQueueState),
      addDepEdges toIdx s deps = some s2 →
      ∀ dep ∈ deps, (alookup s.drv_to_node dep).isSome = true := by
  intro deps
  induction deps with
  | nil => intro s s2 _ dep hdep; cases hdep
  | cons dep0 rest ih =>
    intro s s2 h dep hdep
    simp only [addDepEdges] at h
    cases hf : alookup s.drv_to_node dep0 with
    | none => rw [hf] at h; cases h
    | some fromIdx =>
      rw [hf] at h
      simp only [] at h
      rcases List.mem_cons.mp hdep with hd | hd
      · rw [hd, hf]; rfl
      · by_cases hc : s.edges.contains (fromIdx, toIdx) = true
        · rw [if_pos hc] at h
          exact ih _ _ h dep hd
        · rw [if_neg hc] at h
          by_cases hw : wouldCycle s.edges fromIdx toIdx = true
          · rw [if_pos hw] at h; cases h
          · rw [if_neg hw] at h
            exact ih _ _ h dep hd

theorem addDepEdges_unresolved_none (toIdx : Nat) :
    ∀ (deps : List String) (s : BuildQueueState) (dep : String),
      dep ∈ deps → alookup s.drv_to_node dep = none →
      addDepEdges toIdx s deps = none := by
  intro deps
  induction deps with
  | nil => intro s dep hdep _; cases hdep
  | cons dep0 rest ih =>
    intro s dep hdep hnone
    simp only [addDepEdges]
    rcases List.mem_cons.mp hdep with hd | hd
    · rw [← hd, hnone]
    · cases hf : alookup s.drv_to_node dep0 with
      | none => rfl
      | some fromIdx =>
        simp only []
        by_cases hc : s.edges.contains (fromIdx, toIdx) = true
        · rw [if_pos hc]
          exact ih _ _ hd hnone
        · rw [if_neg hc]
          by_cases hw : wouldCycle s.edges fromIdx toIdx = true
          · rw [if_pos hw]
          · rw [if_neg hw]
            exact ih _ _ hd hnone

theorem addEdgesOuter_fields :
    ∀ (ds : List Derivation) (s s2 : BuildQueueState),
      addEdgesOuter s ds = some s2 →
      s2.nodes = s.nodes ∧ s2.drv_to_node = s.drv_to_node ∧ s2.ready = s.ready ∧
        s2.pending_workflows = s.pending_workflows ∧ s2.nextIdx = s.nextIdx := by
  intro ds
  induction ds with
  | nil =>
    intro s s2 h
    simp [addEdgesOuter] at h
    rw [← h]
    exact ⟨rfl, rfl, rfl, rfl, rfl⟩
  | cons d rest ih =>
    intro s s2 h
    simp only [addEdgesOuter] at h
    cases ht : alookup s.drv_to_node d.drv_path with
    | none => rw [ht] at h; cases h
    | some toIdx =>
      rw [ht] at h
      simp only [] at h
      cases hd : addDepEdges toIdx s d.input_drvs with
      | none => rw [hd] at h; cases h
      | some smid =>
        rw [hd] at h
        obtain ⟨m1, m2, m3, m4, m5⟩ := addDepEdges_fields toIdx _ _ _ hd
        obtain ⟨h1, h2, h3, h4, h5⟩ := ih _ _ h
        exact ⟨h1.trans m1, h2.trans m2, h3.trans m3, h4.trans m4, h5.trans m5⟩

theorem addEdgesOuter_resolves :
    ∀ (ds : List Derivation) (s s2 : BuildQueueState),
      addEdgesOuter s ds = some s2 →
      ∀ d ∈ ds, ∀ dep ∈ d.input_drvs, (alookup s.drv_to_node dep).isSome = true := by
  intro ds
  induction ds with
  | nil => intro s s2 _ d hd; cases hd
  | cons d0 rest ih =>
    intro s s2 h d hd dep hdep
    simp only [addEdgesOuter] at h
    cases ht : alookup s.drv_to_node d0.drv_path with
    | none => rw [ht] at h; cases h
    | some toIdx =>
      rw [ht] at h
      simp only [] at h
      cases hm : addDepEdges toIdx s d0.input_drvs with
      | none => rw [hm] at h; cases h
      | some smid =>
        rw [hm] at h
        rcases List.mem_cons.mp hd with h0 | h0
        · exact addDepEdges_resolves toIdx _ _ _ hm dep (h0 ▸ hdep)
        · have := ih _ _ h d h0 dep hdep
          rw [(addDepEdges_fields toIdx _ _ _ hm).2.1] at this
          exact this

theorem addEdgesOuter_unresolved_none :
    ∀ (ds : List Derivation) (s : BuildQueueState) (d : Derivation) (dep : String),
      d ∈ ds → dep ∈ d.input_drvs → alookup s.drv_to_node dep = none →
      addEdgesOuter s ds = none := by
  intro ds
  induction ds with
  | nil => intro s d dep hd _ _; cases hd
  | cons d0 rest ih =>
    intro s d dep hd hdep hnone
    simp only [addEdgesOuter]
    cases ht : alookup s.drv_to_node d0.drv_path with
    | none => rfl
    | some toIdx =>
      simp only []
      rcases List.mem_cons.mp hd with h0 | h0
      · rw [addDepEdges_unresolved_none toIdx _ _ dep (h0 ▸ hdep) hnone]
      · cases hm : addDepEdges toIdx s d0.input_drvs with
        | none => rfl
        | some smid =>
          simp only []
          apply ih _ d dep h0 hdep
          rw [(addDepEdges_fields toIdx _ _ _ hm).2.1]
          exact hnone

theorem pendingAfterBatch_drv (s : BuildQueueState) (w : Int) (t : Nat) :
    (pendingAfterBatch s w t).drv_to_node = s.drv_to_node := by
  unfold pendingAfterBatch
  split <;> rfl

theorem pendingAfterBatch_nodes (s : BuildQueueState) (w : Int) (t : Nat) :
    (pendingAfterBatch s w t).nodes = s.nodes := by
  unfold pendingAfterBatch
  split <;> rfl

theorem pendingAfterBatch_value (s : BuildQueueState) (w : Int) (t : Nat) :
    (alookup (pendingAfterBatch s w t).pending_workflows w).getD 0 =
      (alookup s.pending_workflows w).getD 0 + t := by
  unfold pendingAfterBatch
  split
  · show (alookup (astore s.pending_workflows w ((alookup s.pending_workflows w).getD 0 + t)) w).getD 0 = (alookup s.pending_workflows w).getD 0 + t
    rw [alookup_astore_self]
    rfl
  · have ht0 : t = 0 := by omega
    rw [ht0, Nat.add_zero]

/-! Lemmas about the node-insertion loop of `add_jobs`. -/

theorem addNodesLoop_keys (w : Int) :
    ∀ (ds : List Derivation) (acc acc2 : AddAcc),
      addNodesLoop w acc ds = some acc2 →
      ∀ p, (alookup acc2.s.drv_to_node p).isSome = true →
        (alookup acc.s.drv_to_node p).isSome = true ∨ p ∈ ds.map Derivation.drv_path := by
  intro ds
  induction ds with
  | nil =>
    intro acc acc2 h p hp
    simp [addNodesLoop] at h
    left
    rw [h]
    exact hp
  | cons d rest ih =>
    intro acc acc2 h p hp
    simp only [addNodesLoop, addNodeStep] at h
    cases hidx : alookup acc.s.drv_to_node d.drv_path with
    | some idx =>
      rw [hidx] at h
      simp only [] at h
      cases hjob : alookup acc.s.nodes idx with
      | none => rw [hjob] at h; cases h
      | some job =>
        rw [hjob] at h
        simp only [] at h
        rcases ih _ _ h p hp with h1 | h1
        · left; exact h1
        · right; exact List.mem_cons_of_mem _ h1
    | none =>
      rw [hidx] at h
      simp only [] at h
      rcases ih _ _ h p hp with h1 | h1
      · rw [alookup_append] at h1
        cases hl : alookup acc.s.drv_to_node p with
        | some v => left; rfl
        | none =>
          rw [hl] at h1
          simp only [alookup] at h1
          by_cases hdp : d.drv_path = p
          · right
            rw [List.map_cons]
            exact hdp ▸ List.mem_cons_self _ _
          · rw [if_neg hdp] at h1
            cases h1
      · right; exact List.mem_cons_of_mem _ h1

theorem addNodesLoop_newNode (w : Int) :
    ∀ (ds : List Derivation) (acc acc2 : AddAcc),
      addNodesLoop w acc ds = some acc2 →
      ∀ i j, alookup acc2.s.nodes i = some j →
        (∃ j0, alookup acc.s.nodes i = some j0 ∧
          j0.derivation = j.derivation ∧ j0.status = j.status) ∨
        (j.derivation ∈ ds ∧
          j.status =
            (if j.derivation.input_drvs.isEmpty then BuildStatus.Ready
             else BuildStatus.Queued)) := by
  intro ds
  induction ds with
  | nil =>
    intro acc acc2 h i j hj
    simp [addNodesLoop] at h
    left
    exact ⟨j, by rw [h]; exact hj, rfl, rfl⟩
  | cons d rest ih =>
    intro acc acc2 h i j hj
    simp only [addNodesLoop, addNodeStep] at h
    cases hidx : alookup acc.s.drv_to_node d.drv_path with
    | some idx =>
      rw [hidx] at h
      simp only [] at h
      cases hjob : alookup acc.s.nodes idx with
      | none => rw [hjob] at h; cases h
      | some job =>
        rw [hjob] at h
        simp only [] at h
        rcases ih _ _ h i j hj with ⟨j0, hj0, hder, hst⟩ | h1
        · by_cases hii : i = idx
          · subst hii
            rw [alookup_aset_self _ hjob] at hj0
            injection hj0 with hj0e
            left
            refine ⟨job, hjob, ?_, ?_⟩
            · rw [← hder, ← hj0e]
            · rw [← hst, ← hj0e]
          · rw [alookup_aset_of_ne _ _ _ _ hii] at hj0
            left
            exact ⟨j0, hj0, hder, hst⟩
        · right
          exact ⟨List.mem_cons_of_mem _ h1.1, h1.2⟩
    | none =>
      rw [hidx] at h
      simp only [] at h
      rcases ih _ _ h i j hj with ⟨j0, hj0, hder, hst⟩ | h1
      · rw [alookup_append] at hj0
        cases hl : alookup acc.s.nodes i with
        | some v =>
          rw [hl] at hj0
          injection hj0 with hj0e
          left
          refine ⟨v, rfl, ?_, ?_⟩
          · rw [hj0e]; exact hder
          · rw [hj0e]; exact hst
        | none =>
          rw [hl] at hj0
          simp only [alookup] at hj0
          by_cases hni : acc.s.nextIdx = i
          · rw [if_pos hni] at hj0
            injection hj0 with hj0e
            right
            constructor
            · rw [← hder, ← hj0e]
              exact List.mem_cons_self _ _
            · rw [← hst, ← hder, ← hj0e]
          · rw [if_neg hni] at hj0
            cases hj0
      · right
        exact ⟨List.mem_cons_of_mem _ h1.1, h1.2⟩

/-! Claims C5 and C8. -/

/-- C5: for every `add_workflow` call that completes, a newly inserted node's
initial status (which nothing in the call changes afterwards) is `Ready` iff
its derivation declares no input derivation that is in the batch or already
present as a node of the DAG.  In the code the test is `input_drvs.is_empty()`;
the two conditions agree because the call completes only when every declared
input resolves to a batch member or an existing node. -/
theorem add_jobs_new_node_ready_iff (s : BuildQueueState) (ds : List Derivation)
    (w : Int) (s2 : BuildQueueState) (ret : Bool)
    (h : add_jobs s ds w = some (s2, ret)) (i : Nat) (j : BuildJob)
    (hnew : alookup s.nodes i = none) (hpost : alookup s2.nodes i = some j) :
    (j.status = BuildStatus.Ready ↔
      ∀ dep ∈ j.derivation.input_drvs,
        ¬ (dep ∈ ds.map Derivation.drv_path ∨
           (alookup s.drv_to_node dep).isSome = true)) := by
  unfold add_jobs at h
  cases hn : addNodesLoop w { s := s, roots := [], newJobs := 0, dupPending := 0 } ds with
  | none => rw [hn] at h; cases h
  | some acc =>
    rw [hn] at h
    simp only [] at h
    cases he : addEdgesOuter (pendingAfterBatch acc.s w (acc.newJobs + acc.dupPending)) ds with
    | none => rw [he] at h; cases h
    | some s3 =>
      rw [he] at h
      simp only [] at h
      injection h with h1
      injection h1 with h1a h1b
      have hs2nodes : s2.nodes = acc.s.nodes := by
        rw [← h1a]
        have hfld := (addEdgesOuter_fields ds _ _ he).1
        rw [show ({ s3 with ready := s3.ready ++ acc.roots } : BuildQueueState).nodes
              = s3.nodes from rfl, hfld, pendingAfterBatch_nodes]
      have haccn : alookup acc.s.nodes i = some j := by rw [← hs2nodes]; exact hpost
      rcases addNodesLoop_newNode w ds _ _ hn i j haccn with ⟨j0, hj0, _, _⟩ | ⟨hder, hst⟩
      · rw [show ({ s := s, roots := [], newJobs := 0, dupPending := 0 } : AddAcc).s
              = s from rfl] at hj0
        rw [hnew] at hj0
        cases hj0
      · constructor
        · intro hready dep hdep
          have hemp : j.derivation.input_drvs.isEmpty = true := by
            by_contra hne
            rw [hst, if_neg hne] at hready
            cases hready
          rw [List.isEmpty_iff] at hemp
          rw [hemp] at hdep
          cases hdep
        · intro hall
          rw [hst]
          by_cases hemp : j.derivation.input_drvs.isEmpty = true
          · rw [if_pos hemp]
          · exfalso
            obtain ⟨dep, hdep⟩ : ∃ dep, dep ∈ j.derivation.input_drvs := by
              cases hl : j.derivation.input_drvs with
              | nil => rw [hl] at hemp; simp at hemp
              | cons a t => exact ⟨a, List.mem_cons_self _ _⟩
            have hres := addEdgesOuter_resolves ds _ _ he j.derivation hder dep hdep
            have hres2 : (alookup acc.s.drv_to_node dep).isSome = true := by
              rw [pendingAfterBatch_drv] at hres
              exact hres
            rcases addNodesLoop_keys w ds _ _ hn dep hres2 with hk | hk
            · exact (hall dep hdep) (Or.inr hk)
            · exact (hall dep hdep) (Or.inl hk)

/-- Witness state for `add_jobs_new_node_ready_iff`: the result of
`add_workflow([A, B(→A)], 1)` on the empty queue. -/
def c5s2 : BuildQueueState :=
  ((add_jobs BuildQueueState.empty [dA, dB] 1).getD (BuildQueueState.empty, false)).1

/-- The job stored at index 0 of that state (A's node, status Ready). -/
def c5j : BuildJob :=
  (alookup c5s2.nodes 0).getD
    { derivation := dA, status := BuildStatus.Queued, requested_by := [] }

/-- Instantiation of `add_jobs_new_node_ready_iff` on the concrete batch
`[A, B(→A)]`. -/
theorem add_jobs_new_node_ready_iff_witness :
    add_jobs BuildQueueState.empty [dA, dB] 1 = some (c5s2, false) ∧
    alookup BuildQueueState.empty.nodes 0 = none ∧
    alookup c5s2.nodes 0 = some c5j ∧
    (c5j.status = BuildStatus.Ready ↔
      ∀ dep ∈ c5j.derivation.input_drvs,
        ¬ (dep ∈ [dA, dB].map Derivation.drv_path ∨
           (alookup BuildQueueState.empty.drv_to_node dep).isSome = true)) := by
  refine ⟨rfl, rfl, rfl, ?_⟩
  exact add_jobs_new_node_ready_iff BuildQueueState.empty [dA, dB] 1 c5s2 false rfl 0 c5j
    rfl rfl

/-- C8 (amended): a batch containing a derivation one of whose declared
inputs neither occurs among the batch's drv paths nor is a node of the DAG
makes `add_jobs` fail (the `unwrap` of the unresolved input in the edge loop
panics): the call does not complete normally and no node is left without the
edge. -/
theorem add_jobs_unknown_input_none (s : BuildQueueState) (ds : List Derivation)
    (w : Int) (d : Derivation) (dep : String)
    (hd : d ∈ ds) (hdep : dep ∈ d.input_drvs)
    (hbatch : dep ∉ ds.map Derivation.drv_path)
    (hnode : alookup s.drv_to_node dep = none) :
    add_jobs s ds w = none := by
  unfold add_jobs
  cases hn : addNodesLoop w { s := s, roots := [], newJobs := 0, dupPending := 0 } ds with
  | none => rfl
  | some acc =>
    simp only []
    have hacc : alookup acc.s.drv_to_node dep = none := by
      cases hsome : alookup acc.s.drv_to_node dep with
      | none => rfl
      | some v =>
        rcases addNodesLoop_keys w ds _ _ hn dep (by rw [hsome]; rfl) with h1 | h1
        · rw [show ({ s := s, roots := [], newJobs := 0, dupPending := 0 } : AddAcc).s
              = s from rfl] at h1
          rw [hnode] at h1
          cases h1
        · exact absurd h1 hbatch
    rw [addEdgesOuter_unresolved_none ds _ d dep hd hdep
      (by rw [pendingAfterBatch_drv]; exact hacc)]

/-- Instantiation of `add_jobs_unknown_input_none` at the concrete batch
`[dBad]` on the empty queue. -/
theorem add_jobs_unknown_input_none_witness :
    dBad ∈ [dBad] ∧ "/nowhere.drv" ∈ dBad.input_drvs ∧
    "/nowhere.drv" ∉ [dBad].map Derivation.drv_path ∧
    alookup BuildQueueState.empty.drv_to_node "/nowhere.drv" = none ∧
    add_jobs BuildQueueState.empty [dBad] 1 = none := by
  refine ⟨List.mem_cons_self _ _, by decide, by decide, rfl, ?_⟩
  exact add_jobs_unknown_input_none BuildQueueState.empty [dBad] 1 dBad "/nowhere.drv"
    (List.mem_cons_self _ _) (by decide) (by decide) rfl

/-! Invariant carried through the node-insertion loop relative to the state
`s0` at the start of the `add_jobs` call, used to relate the loop's counters
to `s0`. -/

structure NodeLoopInv (s0 t : BuildQueueState) : Prop where
  fresh0 : ∀ i j, alookup s0.nodes i = some j → i < s0.nextIdx
  mapMono : ∀ p i2, alookup s0.drv_to_node p = some i2 → alookup t.drv_to_node p = some i2
  statusPres : ∀ i j, alookup s0.nodes i = some j →
    ∃ j2, alookup t.nodes i = some j2 ∧ j2.status = j.status
  newNotDone : ∀ i j2, alookup s0.nodes i = none → alookup t.nodes i = some j2 →
    j2.status.done = false
  freshT : ∀ i j2, alookup t.nodes i = some j2 → i < t.nextIdx
  idxMono : s0.nextIdx ≤ t.nextIdx
  newMapNew : ∀ p i2, alookup s0.drv_to_node p = none → alookup t.drv_to_node p = some i2 →
    alookup s0.nodes i2 = none

theorem nodeLoopInv_base (s0 : BuildQueueState) (hf : nodesFresh s0 = true) :
    NodeLoopInv s0 s0 := by
  have hfr : ∀ i j, alookup s0.nodes i = some j → i < s0.nextIdx := by
    intro i j h
    have hmem := alookup_mem h
    have := List.all_eq_true.mp hf _ hmem
    simpa using this
  exact ⟨hfr,
    fun p i2 h => h,
    fun i j h => ⟨j, h, rfl⟩,
    fun i j2 hn hs => (by rw [hn] at hs; cases hs),
    hfr,
    Nat.le_refl _,
    fun p i2 hn hs => (by rw [hn] at hs; cases hs)⟩

theorem addNodeStep_inv (s0 : BuildQueueState) (w : Int) (acc : AddAcc)
    (d : Derivation) (acc2 : AddAcc)
    (hinv : NodeLoopInv s0 acc.s) (h : addNodeStep w acc d = some acc2) :
    NodeLoopInv s0 acc2.s ∧
    acc2.newJobs + acc2.dupPending =
      acc.newJobs + acc.dupPending + (if jobDoneAt s0 d then 0 else 1) ∧
    acc2.s.pending_workflows = acc.s.pending_workflows := by
  obtain ⟨F0, B1, B2, B3, B4, B5, B6⟩ := hinv
  unfold addNodeStep at h
  cases hidx : alookup acc.s.drv_to_node d.drv_path with
  | some idx =>
    rw [hidx] at h
    simp only [] at h
    cases hjob : alookup acc.s.nodes idx with
    | none => rw [hjob] at h; cases h
    | some job =>
      rw [hjob] at h
      simp only [] at h
      have h2 := Option.some.inj h
      subst h2
      have hdoneEq : jobDoneAt s0 d = job.status.done := by
        cases hp0 : alookup s0.drv_to_node d.drv_path with
        | some i0 =>
          have hb := B1 _ _ hp0
          rw [hidx] at hb
          have hio := Option.some.inj hb
          subst hio
          cases hn0 : alookup s0.nodes idx with
          | some j0 =>
            obtain ⟨j2, hj2, hstEq⟩ := B2 _ _ hn0
            rw [hjob] at hj2
            have hj2e := Option.some.inj hj2
            subst hj2e
            simp [jobDoneAt, hp0, hn0]
            rw [← hstEq]
          | none =>
            have hnd : job.status.done = false := B3 _ _ hn0 hjob
            simp [jobDoneAt, hp0, hn0, hnd]
        | none =>
          have hs0n : alookup s0.nodes idx = none := B6 _ _ hp0 hidx
          have hnd : job.status.done = false := B3 _ _ hs0n hjob
          simp [jobDoneAt, hp0, hnd]
      refine ⟨?_, ?_, rfl⟩
      · refine ⟨F0, B1, ?_, ?_, ?_, B5, B6⟩
        · intro i j0 h0
          obtain ⟨j2, hj2, hse⟩ := B2 _ _ h0
          by_cases hii : i = idx
          · subst hii
            rw [hjob] at hj2
            have hj2e := Option.some.inj hj2
            subst hj2e
            exact ⟨_, alookup_aset_self _ hjob, hse⟩
          · exact ⟨j2, by rw [alookup_aset_of_ne _ _ _ _ hii]; exact hj2, hse⟩
        · intro i j2 hn0 hset
          by_cases hii : i = idx
          · subst hii
            have hset2 : alookup (aset acc.s.nodes i
                { job with requested_by := hsInsert job.requested_by w }) i = some j2 := hset
            rw [alookup_aset_self _ hjob] at hset2
            have hj2e := Option.some.inj hset2
            have hd2 : job.status.done = false := B3 _ _ hn0 hjob
            rw [← hj2e]
            exact hd2
          · have hset2 : alookup (aset acc.s.nodes idx
                { job with requested_by := hsInsert job.requested_by w }) i = some j2 := hset
            rw [alookup_aset_of_ne _ _ _ _ hii] at hset2
            exact B3 _ _ hn0 hset2
        · intro i j2 hset
          have hset2 : alookup (aset acc.s.nodes idx
              { job with requested_by := hsInsert job.requested_by w }) i = some j2 := hset
          have hiso := alookup_aset_isSome acc.s.nodes idx i
            { job with requested_by := hsInsert job.requested_by w }
          rw [hset2] at hiso
          cases hx : alookup acc.s.nodes i with
          | none => rw [hx] at hiso; simp at hiso
          | some jx => exact B4 _ _ hx
      · rw [hdoneEq]
        cases hjd : job.status.done <;> simp [hjd] <;> omega
  | none =>
    rw [hidx] at h
    simp only [] at h
    have h2 := Option.some.inj h
    subst h2
    have hdoneEq : jobDoneAt s0 d = false := by
      cases hp0 : alookup s0.drv_to_node d.drv_path with
      | some i0 =>
        have hb := B1 _ _ hp0
        rw [hidx] at hb
        cases hb
      | none => simp [jobDoneAt, hp0]
    refine ⟨?_, ?_, rfl⟩
    · refine ⟨F0, ?_, ?_, ?_, ?_, ?_, ?_⟩
      · intro p i2 hp
        exact alookup_append_left _ (B1 _ _ hp)
      · intro i j h0
        obtain ⟨j2, hj2, hse⟩ := B2 _ _ h0
        exact ⟨j2, alookup_append_left _ hj2, hse⟩
      · intro i j2 hn0 happ
        rw [alookup_append] at happ
        cases hl : alookup acc.s.nodes i with
        | some v =>
          rw [hl] at happ
          have := Option.some.inj happ
          rw [← this]
          exact B3 _ _ hn0 hl
        | none =>
          rw [hl] at happ
          simp only [alookup] at happ
          by_cases hni : acc.s.nextIdx = i
          · rw [if_pos hni] at happ
            have := Option.some.inj happ
            rw [← this]
            cases hemp : d.input_drvs.isEmpty <;> simp [hemp, BuildStatus.done]
          · rw [if_neg hni] at happ
            cases happ
      · intro i j2 happ
        rw [alookup_append] at happ
        cases hl : alookup acc.s.nodes i with
        | some v =>
          have := B4 _ _ hl
          show i < acc.s.nextIdx + 1
          omega
        | none =>
          rw [hl] at happ
          simp only [alookup] at happ
          by_cases hni : acc.s.nextIdx = i
          · show i < acc.s.nextIdx + 1
            omega
          · rw [if_neg hni] at happ
            cases happ
      · show s0.nextIdx ≤ acc.s.nextIdx + 1
        omega
      · intro p i2 hp0 happ
        rw [alookup_append] at happ
        cases hl : alookup acc.s.drv_to_node p with
        | some v =>
          rw [hl] at happ
          have := Option.some.inj happ
          rw [← this]
          exact B6 _ _ hp0 hl
        | none =>
          rw [hl] at happ
          simp only [alookup] at happ
          by_cases hdp : d.drv_path = p
          · rw [if_pos hdp] at happ
            have hi2 := Option.some.inj happ
            cases hx : alookup s0.nodes i2 with
            | none => rfl
            | some jx =>
              have := F0 _ _ hx
              rw [← hi2] at this
              omega
          · rw [if_neg hdp] at happ
            cases happ
    · rw [hdoneEq]
      simp
      omega

theorem addNodesLoop_inv (s0 : BuildQueueState) (w : Int) :
    ∀ (ds : List Derivation) (acc acc2 : AddAcc),
      NodeLoopInv s0 acc.s → addNodesLoop w acc ds = some acc2 →
      NodeLoopInv s0 acc2.s ∧
      acc2.newJobs + acc2.dupPending =
        acc.newJobs + acc.dupPending +
          (ds.filter (fun d => !jobDoneAt s0 d)).length ∧
      acc2.s.pending_workflows = acc.s.pending_workflows := by
  intro ds
  induction ds with
  | nil =>
    intro acc acc2 hinv h
    simp [addNodesLoop] at h
    rw [← h]
    exact ⟨hinv, by simp, rfl⟩
  | cons d rest ih =>
    intro acc acc2 hinv h
    simp only [addNodesLoop] at h
    cases hstep : addNodeStep w acc d with
    | none => rw [hstep] at h; cases h
    | some accMid =>
      rw [hstep] at h
      simp only [] at h
      obtain ⟨hinv2, hcnt, hpend⟩ := addNodeStep_inv s0 w acc d accMid hinv hstep
      obtain ⟨hinv3, hcnt2, hpend2⟩ := ih _ _ hinv2 h
      refine ⟨hinv3, ?_, hpend2.trans hpend⟩
      rw [hcnt2, hcnt, List.filter_cons]
      cases hjd : jobDoneAt s0 d <;> simp [hjd] <;> omega

/-! Claims C6 and C7 (amended parts). -/

/-- C7 (amended): `add_workflow(ds, w)` returns true iff every derivation of
the batch is already present as a node whose status is done — the batch's own
contribution is all that is consulted; pending jobs the workflow accumulated
in earlier calls are ignored (the counterexample shows a true return while
`pending[w] = 1`). -/
theorem add_workflow_return_iff_batch_done (s : BuildQueueState)
    (ds : List Derivation) (w : Int) (s2 : BuildQueueState) (ret : Bool)
    (hfresh : nodesFresh s = true) (h : add_jobs s ds w = some (s2, ret)) :
    (ret = true ↔ ∀ d ∈ ds, jobDoneAt s d = true) := by
  unfold add_jobs at h
  cases hn : addNodesLoop w { s := s, roots := [], newJobs := 0, dupPending := 0 } ds with
  | none => rw [hn] at h; cases h
  | some acc =>
    rw [hn] at h
    simp only [] at h
    cases he : addEdgesOuter (pendingAfterBatch acc.s w (acc.newJobs + acc.dupPending)) ds with
    | none => rw [he] at h; cases h
    | some s3 =>
      rw [he] at h
      simp only [] at h
      injection h with h1
      injection h1 with h1a h1b
      obtain ⟨_, hcnt, _⟩ := addNodesLoop_inv s w ds _ _ (nodeLoopInv_base s hfresh) hn
      have hcount : acc.newJobs + acc.dupPending =
          (ds.filter (fun d => !jobDoneAt s d)).length := by
        rw [hcnt]; simp
      rw [← h1b, hcount]
      constructor
      · intro hbeq d hd
        have hc0 : (ds.filter (fun d => !jobDoneAt s d)).length = 0 := by
          simpa using hbeq
        have hnil := List.length_eq_zero.mp hc0
        have hnd := List.filter_eq_nil_iff.mp hnil d hd
        cases hjd : jobDoneAt s d
        · exact absurd (by rw [hjd]; rfl) hnd
        · rfl
      · intro hall
        have hnil : ds.filter (fun d => !jobDoneAt s d) = [] := by
          apply List.filter_eq_nil_iff.mpr
          intro d hd
          rw [hall d hd]
          simp
        rw [hnil]
        rfl

/-- C6 (amended): an `add_workflow(ds, w)` call that completes increases the
value of `pending[w]` by exactly the number of batch entries whose drv path is
not already a done node (each new node and each not-yet-done duplicate counts,
with no deduplication on `(drv_path, workflow_id)`); re-inserting the same
derivation list is therefore a no-op on the counters only when all those jobs
are already done. -/
theorem add_workflow_pending_delta (s : BuildQueueState) (ds : List Derivation)
    (w : Int) (s2 : BuildQueueState) (ret : Bool)
    (hfresh : nodesFresh s = true) (h : add_jobs s ds w = some (s2, ret)) :
    (alookup s2.pending_workflows w).getD 0 =
      (alookup s.pending_workflows w).getD 0 +
        (ds.filter (fun d => !jobDoneAt s d)).length := by
  unfold add_jobs at h
  cases hn : addNodesLoop w { s := s, roots := [], newJobs := 0, dupPending := 0 } ds with
  | none => rw [hn] at h; cases h
  | some acc =>
    rw [hn] at h
    simp only [] at h
    cases he : addEdgesOuter (pendingAfterBatch acc.s w (acc.newJobs + acc.dupPending)) ds with
    | none => rw [he] at h; cases h
    | some s3 =>
      rw [he] at h
      simp only [] at h
      injection h with h1
      injection h1 with h1a h1b
      obtain ⟨_, hcnt, hpend⟩ := addNodesLoop_inv s w ds _ _ (nodeLoopInv_base s hfresh) hn
      have hpend2 : acc.s.pending_workflows = s.pending_workflows := hpend
      have hs2p : s2.pending_workflows = s3.pending_workflows := by rw [← h1a]
      have hs3p : s3.pending_workflows =
          (pendingAfterBatch acc.s w (acc.newJobs + acc.dupPending)).pending_workflows :=
        (addEdgesOuter_fields ds _ _ he).2.2.2.1
      rw [hs2p, hs3p, pendingAfterBatch_value, hpend2]
      have hcount : acc.newJobs + acc.dupPending =
          (ds.filter (fun d => !jobDoneAt s d)).length := by
        rw [hcnt]; simp
      omega

/-- State after the first `add_workflow([A], 1)` call, as a plain value. -/
def c6sW : BuildQueueState :=
  ((add_jobs BuildQueueState.empty [dA] 1).getD (BuildQueueState.empty, false)).1

/-- State after the second, identical `add_workflow([A], 1)` call. -/
def c6s2W : BuildQueueState :=
  ((add_jobs c6sW [dA] 1).getD (BuildQueueState.empty, false)).1

/-- Instantiation of `add_workflow_pending_delta` at the repeated
`add_workflow([A], 1)` call: the delta is 1 (A's job is not done), so
`pending[1]` grows from 1 to 2. -/
theorem add_workflow_pending_delta_witness :
    nodesFresh c6sW = true ∧
    add_jobs c6sW [dA] 1 = some (c6s2W, false) ∧
    (alookup c6s2W.pending_workflows 1).getD 0 =
      (alookup c6sW.pending_workflows 1).getD 0 +
        ([dA].filter (fun d => !jobDoneAt c6sW d)).length := by
  refine ⟨rfl, rfl, ?_⟩
  exact add_workflow_pending_delta c6sW [dA] 1 c6s2W false rfl rfl

/-- The C7 trace state, as a plain value. -/
def c7sW : BuildQueueState := c7s3.getD BuildQueueState.empty

/-- The state after the final `add_workflow([C], 1)` call of the C7 trace. -/
def c7s4W : BuildQueueState :=
  ((add_jobs c7sW [dC] 1).getD (BuildQueueState.empty, false)).1

/-- Instantiation of `add_workflow_return_iff_batch_done` at the C7 trace. -/
theorem add_workflow_return_iff_batch_done_witness :
    nodesFresh c7sW = true ∧
    add_jobs c7sW [dC] 1 = some (c7s4W, true) ∧
    (true = true ↔ ∀ d ∈ [dC], jobDoneAt c7sW d = true) := by
  refine ⟨rfl, rfl, ?_⟩
  exact add_workflow_return_iff_batch_done c7sW [dC] 1 c7s4W true rfl rfl

/-! Claim C2 (amended part): the nodes that success propagation moves into
the ready set do satisfy the ready invariant. -/

theorem removeEdge_subset :
    ∀ (l : List (Nat × Nat)) (a b : Nat) (e : Nat × Nat),
      e ∈ removeEdge l a b → e ∈ l := by
  intro l
  induction l with
  | nil => intro a b e he; cases he
  | cons e0 t ih =>
    intro a b e he
    simp only [removeEdge] at he
    by_cases h0 : e0 = (a, b)
    · rw [if_pos h0] at he
      exact List.mem_cons_of_mem _ he
    · rw [if_neg h0] at he
      rcases List.mem_cons.mp he with h1 | h1
      · rw [h1]; exact List.mem_cons_self _ _
      · exact List.mem_cons_of_mem _ (ih _ _ _ h1)

theorem successChildren_spec (id : Nat) :
    ∀ (children : List Nat) (s sF : BuildQueueState),
      successChildren id s children = some sF →
      ∃ new, sF.ready = s.ready ++ new ∧
        (∀ e ∈ sF.edges, e ∈ s.edges) ∧
        (∀ n ∈ new, ∀ e ∈ sF.edges, e.2 ≠ n) ∧
        (∀ m jm, alookup s.nodes m = some jm → jm.status = BuildStatus.Ready →
          ∃ jm2, alookup sF.nodes m = some jm2 ∧ jm2.status = BuildStatus.Ready) ∧
        (∀ n ∈ new, ∃ jn2, alookup sF.nodes n = some jn2 ∧ jn2.status = BuildStatus.Ready) := by
  intro children
  induction children with
  | nil =>
    intro s sF h
    simp [successChildren] at h
    refine ⟨[], ?_, ?_, ?_, ?_, ?_⟩
    · rw [← h, List.append_nil]
    · intro e he; rw [← h] at he; exact he
    · intro n hn; cases hn
    · intro m jm hm hr
      rw [← h]
      exact ⟨jm, hm, hr⟩
    · intro n hn; cases hn
  | cons n rest ih =>
    intro s sF h
    simp only [successChildren] at h
    by_cases hnp : ((removeEdge s.edges id n).filter (fun e => e.2 == n)).length = 0
    · rw [if_pos hnp] at h
      cases hjn : alookup s.nodes n with
      | none => rw [hjn] at h; cases h
      | some jn =>
        rw [hjn] at h
        simp only [] at h
        obtain ⟨new2, hready, hsub, hnoedge, hpres, hreadyP⟩ := ih _ _ h
        have hnoin : ∀ e ∈ removeEdge s.edges id n, e.2 ≠ n := by
          intro e he heq
          have hnil := List.length_eq_zero.mp hnp
          have := List.filter_eq_nil_iff.mp hnil e he
          exact this (by rw [heq]; exact beq_self_eq_true n)
        refine ⟨n :: new2, ?_, ?_, ?_, ?_, ?_⟩
        · rw [hready]
          show _ = s.ready ++ ([n] ++ new2)
          rw [← List.append_assoc]
        · intro e he
          exact removeEdge_subset _ _ _ _ (hsub e he)
        · intro n2 hn2 e he
          rcases List.mem_cons.mp hn2 with h2 | h2
          · rw [h2]
            exact hnoin e (hsub e he)
          · exact hnoedge n2 h2 e he
        · intro m jm hm hr
          by_cases hmn : m = n
          · subst hmn
            rw [hjn] at hm
            have hje := Option.some.inj hm
            subst hje
            exact hpres m _ (alookup_aset_self _ hjn) rfl
          · apply hpres m jm
            · rw [alookup_aset_of_ne _ _ _ _ hmn]
              exact hm
            · exact hr
        · intro n2 hn2
          rcases List.mem_cons.mp hn2 with h2 | h2
          · subst h2
            exact hpres n2 _ (alookup_aset_self _ hjn) rfl
          · exact hreadyP n2 h2
    · rw [if_neg hnp] at h
      obtain ⟨new2, hready, hsub, hnoedge, hpres, hreadyP⟩ := ih _ _ h
      refine ⟨new2, hready, ?_, hnoedge, hpres, hreadyP⟩
      intro e he
      exact removeEdge_subset _ _ _ _ (hsub e he)

/-- C2 (amended): after an `update_status` call with a terminal-ok status
(Success or Cached), every node that the call appended to the ready set has
status `Ready` and zero incoming edges in the resulting state.  The claim as
stated fails because error propagation (unlike success propagation) pushes
children onto the ready set and then cancels them — see the counterexample —
and the executor compensates by skipping terminal-err jobs after draining. -/
theorem success_propagation_ready_invariant (s : BuildQueueState) (p : String)
    (st : BuildStatus) (s2 : BuildQueueState) (c : List Int)
    (hdone : st.done = true) (herr : st.error = false)
    (h : update_status s p st = some (s2, c)) :
    ∃ new, s2.ready = s.ready ++ new ∧
      ∀ n ∈ new,
        (∃ j, alookup s2.nodes n = some j ∧ j.status = BuildStatus.Ready) ∧
        ∀ e ∈ s2.edges, e.2 ≠ n := by
  unfold update_status at h
  cases hp : alookup s.drv_to_node p with
  | none =>
    rw [hp] at h
    simp only [] at h
    injection h with h1
    injection h1 with h1a h1b
    refine ⟨[], ?_, ?_⟩
    · rw [← h1a, List.append_nil]
    · intro n hn; cases hn
  | some id =>
    rw [hp] at h
    simp only [] at h
    rw [herr] at h
    rw [if_neg (show ¬(false = true) by decide)] at h
    rw [hdone, if_pos rfl] at h
    unfold propagate_success at h
    cases hj : alookup s.nodes id with
    | none => rw [hj] at h; cases h
    | some job =>
      rw [hj] at h
      simp only [] at h
      cases hsc : successChildren id (terminalBase s id job st).1
          (((terminalBase s id job st).1.edges.filter (fun e => e.1 == id)).map
            (fun e => e.2)) with
      | none => rw [hsc] at h; cases h
      | some s3 =>
        rw [hsc] at h
        simp only [] at h
        injection h with h1
        injection h1 with h1a h1b
        obtain ⟨new, hready, hsub, hnoedge, hpres, hreadyP⟩ :=
          successChildren_spec id _ _ _ hsc
        refine ⟨new, ?_, ?_⟩
        · rw [← h1a, hready]
          rfl
        · intro n hn
          constructor
          · obtain ⟨j2, hj2, hr⟩ := hreadyP n hn
            exact ⟨j2, by rw [← h1a]; exact hj2, hr⟩
          · intro e he
            exact hnoedge n hn e (by rw [h1a]; exact he)

/-- State after `add_workflow([A, B(→A)], 1)`, as a plain value. -/
def c2sAdd : BuildQueueState :=
  ((add_jobs BuildQueueState.empty [dA, dB] 1).getD (BuildQueueState.empty, false)).1

/-- State after additionally applying `update_status("/a.drv", Success)`. -/
def c2sSucc : BuildQueueState :=
  ((update_status c2sAdd "/a.drv" BuildStatus.Success).getD (BuildQueueState.empty, [])).1

/-- The workflow completions returned by that `update_status` call. -/
def c2cSucc : List Int :=
  ((update_status c2sAdd "/a.drv" BuildStatus.Success).getD (BuildQueueState.empty, [])).2

/-- Instantiation of `success_propagation_ready_invariant` at the chain
`A → B` with `A = Success`: B is appended to the ready set with status Ready
and no incoming edges. -/
theorem success_propagation_ready_invariant_witness :
    BuildStatus.Success.done = true ∧
    BuildStatus.Success.error = false ∧
    update_status c2sAdd "/a.drv" BuildStatus.Success = some (c2sSucc, c2cSucc) ∧
    (∃ new, c2sSucc.ready = c2sAdd.ready ++ new ∧
      ∀ n ∈ new,
        (∃ j, alookup c2sSucc.nodes n = some j ∧ j.status = BuildStatus.Ready) ∧
        ∀ e ∈ c2sSucc.edges, e.2 ≠ n) := by
  refine ⟨rfl, rfl, rfl, ?_⟩
  exact success_propagation_ready_invariant c2sAdd "/a.drv" BuildStatus.Success
    c2sSucc c2cSucc rfl rfl rfl

end Icicle
